import Mathlib

/-!
Shallow embedding of `src/hotspot/share/gc/parallel/psOldGen.cpp` (class
`PSOldGen`): the sizing operations (`expand`, `expand_by`,
`expand_to_reserved`, `shrink`, `resize`), the resize synchronization
(`post_resize`), the cooperative allocation-driven pretouch protocol
(`pretouch_during_allocation`), and the block-partitioned object iteration
(`num_iterable_blocks`, `object_iterate_block`).

Machine arithmetic: `size_t` values are natural numbers; the places where the
source relies on or guards against wrap-around (`used_in_bytes() +
desired_free_space` in `resize`, and `align_up` on `size_t` in `expand` and
`resize`) are modelled with an explicit `% 2 ^ 64`.  Addresses are byte
addresses in the sizing/pretouch sections (with the HeapWord-unit
conversions of the source written out, HeapWordSize = 8) and HeapWord
addresses in the object-iteration section, exactly following the units the
source uses there.

External collaborators that are part of this repository but not of this
file (PSVirtualSpace, ObjectStartArray, PSCardTable, MutableSpace) are
modelled from the spec; each such definition carries a doc comment starting
with "Modelled from the spec:".
-/

namespace PSOldGen

/-- `2 ^ 64`, the wrap modulus of `size_t` arithmetic on the 64-bit target. -/
def powWord : Nat := 2 ^ 64

/-- `align_down(x, a)` from utilities/align.hpp: round `x` down to a multiple
of `a`.  (`a` is a power of two in every use in this file; for positive `a`
the mask form of the source equals this division form.) -/
def alignDown (x a : Nat) : Nat := x / a * a

/-- `align_up(x, a)` in contexts where the addition cannot wrap (the pointer
alignment in the pretouch path, whose operands are bounded by the live
region's end). -/
def alignUp (x a : Nat) : Nat := (x + a - 1) / a * a

/-- `align_up(x, a)` on `size_t`, with the possible wrap-around of
`x + a - 1` modelled explicitly (the source checks for the wrapped-to-zero
result in `PSOldGen::expand`). -/
def alignUpW (x a : Nat) : Nat := ((x + a - 1) % powWord) / a * a

/-- `clamp(v, lo, hi) = MIN2(MAX2(v, lo), hi)` from globalDefinitions.hpp. -/
def clampSz (v lo hi : Nat) : Nat := min (max v lo) hi

/-- Runtime configuration (command-line flags and constants fixed at
construction) read by PSOldGen: the generation alignment
(`virtual_space()->alignment()`), `MinHeapDeltaBytes`, `UseNUMA` and the
NUMA group count, `UsePerfData`, `AlwaysPreTouch`, the size bounds
`_min_gen_size`/`_max_gen_size`, and the pretouch stride/limit computed by
`initialize_allocation_pretouch` (page size in words; limit = stride times
`ParallelGCThreads`). -/
structure Config where
  alignmentBytes : Nat
  minHeapDeltaBytes : Nat
  useNUMA : Bool
  numaGroups : Nat
  usePerfData : Bool
  alwaysPreTouch : Bool
  minGenBytes : Nat
  maxGenBytes : Nat
  strideWords : Nat
  limitWords : Nat
deriving Repr, DecidableEq

/-- Mutable state of the generation and its collaborators, byte-addressed:
the virtual space (`lowB` = `low_boundary()`, with committed and reserved
sizes in bytes, so `high() = lowB + committedBytes`), the object start
array's and the card table's declared covered regions, the object space's
`top` and `end` (`bottom` always equals `lowB` in this code), the pretouch
cursor `_alloc_pretouch_next`, and a count of performance-counter updates
standing in for the counter collaborators. -/
structure GenState where
  lowB : Nat
  reservedBytes : Nat
  committedBytes : Nat
  startCovB : Nat
  startCovE : Nat
  cardCovB : Nat
  cardCovE : Nat
  spaceTopB : Nat
  spaceEnd : Nat
  pretouchNext : Nat
  counterUpdates : Nat
deriving Repr, DecidableEq

/-- Observable side-structure mutations performed by `post_resize`, in
program order: `ObjectStartArray::set_covered_region`,
`PSCardTable::resize_covered_region`, the publication of the new `end` by
`MutableSpace` setup, and the store to the pretouch cursor. -/
inductive REvent where
  | setStartCovered (lo hi : Nat)
  | setCardCovered (lo hi : Nat)
  | publishEnd (hi : Nat)
  | setPretouch (p : Nat)
deriving Repr, DecidableEq

/-- Whether an event mutates the live region's published bounds. -/
def boundsMutation : REvent → Bool
  | .publishEnd _ => true
  | _ => false

/-- `PSOldGen::post_resize`.  `vmThread` is
`Thread::current()->is_VM_thread()` (true exactly when a worker pool is
available).  The new covering region is `[low(), high())` of the virtual
space.  The `MutableSpace` setup call with `DontClear`/`DontMangle` is the
single call publishing the new `end` (modelled from the spec: the
allocation-space collaborator's region setup publishes `end` and, not
clearing, leaves `top` alone).  Afterwards, on the VM thread only, the
pretouch cursor is stored: the new `end` if `AlwaysPreTouch` (the setup
already touched the pages), else `MIN2` of the new `end` and the old
cursor.  Returns the new state and the ordered trace of side-structure
mutations. -/
def post_resize (cfg : Config) (s : GenState) (vmThread : Bool) :
    GenState × List REvent :=
  let lo := s.lowB
  let hi := s.lowB + s.committedBytes
  let s1 := { s with startCovB := lo, startCovE := hi,
                     cardCovB := lo, cardCovE := hi, spaceEnd := hi }
  if vmThread then
    let np := if cfg.alwaysPreTouch then hi else min hi s.pretouchNext
    ({ s1 with pretouchNext := np },
     [.setStartCovered lo hi, .setCardCovered lo hi, .publishEnd hi,
      .setPretouch np])
  else
    (s1, [.setStartCovered lo hi, .setCardCovered lo hi, .publishEnd hi])

/-- Modelled from the spec: `PSVirtualSpace::expand_by(bytes)` — the
virtual-memory reservation collaborator, not under src/.  Commits `bytes`
more at the top of the committed region; fails (a soft capacity failure)
when the request exceeds the uncommitted remainder or when the operating
system refuses the commit, the latter modelled by the oracle `ok`.  On
failure the space is unchanged. -/
def vsExpandBy (ok : Bool) (s : GenState) (bytes : Nat) : Bool × GenState :=
  if ok && decide (bytes ≤ s.reservedBytes - s.committedBytes) then
    (true, { s with committedBytes := s.committedBytes + bytes })
  else (false, s)

/-- Modelled from the spec: `PSVirtualSpace::shrink_by(bytes)` — uncommits
`bytes` from the top of the committed region; uncommitting is assumed
always possible, so it never fails. -/
def vsShrinkBy (s : GenState) (bytes : Nat) : GenState :=
  { s with committedBytes := s.committedBytes - bytes }

/-- `PSOldGen::expand_by`: delegate the commit to the virtual space; on
success run `post_resize` and then (under `UsePerfData`) update the
performance counters.  The mangling of the newly committed range under
`ZapUnusedHeapArea` writes memory contents only and has no modelled
state. -/
def expand_by (cfg : Config) (vm : Bool) (ok : Bool) (s : GenState)
    (bytes : Nat) : Bool × GenState :=
  let r := vsExpandBy ok s bytes
  if r.1 then
    let s2 := (post_resize cfg r.2 vm).1
    (true,
     if cfg.usePerfData then
       { s2 with counterUpdates := s2.counterUpdates + 1 }
     else s2)
  else (false, r.2)

/-- `PSOldGen::expand_to_reserved`: when the uncommitted remainder
(`virtual_space()->uncommitted_size()`, i.e. reserved minus committed) is
nonzero, expand by exactly that much; otherwise leave `result` at its
initial `false`. -/
def expand_to_reserved (cfg : Config) (vm : Bool) (ok : Bool)
    (s : GenState) : Bool × GenState :=
  if 0 < s.reservedBytes - s.committedBytes then
    expand_by cfg vm ok s (s.reservedBytes - s.committedBytes)
  else (false, s)

/-- `PSOldGen::shrink`: round the request down to the alignment; when the
rounded amount is nonzero, uncommit and run `post_resize`.  NOTE: the
source passes the raw `bytes`, not the rounded `size`, to
`PSVirtualSpace::shrink_by`. -/
def shrink (cfg : Config) (vm : Bool) (s : GenState) (bytes : Nat) :
    GenState :=
  let size := alignDown bytes cfg.alignmentBytes
  if 0 < size then (post_resize cfg (vsShrinkBy s bytes) vm).1
  else s

/-- The `if (!success) success = ...;` chaining idiom of `PSOldGen::expand`:
keep a prior success, otherwise run the next attempt on the state the prior
attempt left behind. -/
def tryElse (r : Bool × GenState) (f : GenState → Bool × GenState) :
    Bool × GenState :=
  if r.1 then r else f r.2

/-- `PSOldGen::expand`: compute the aligned request (`align_up`, falling
back to `align_down` when `align_up` wrapped to zero) and the
minimum-increment floor (`align_up(MinHeapDeltaBytes)`, widened under
`UseNUMA` to at least one alignment unit per NUMA group), then try, in
order: the floor when it is larger than the request, the exact aligned
request, and finally the full reserved ceiling.  `ok1 ok2 ok3` are the OS
commit oracles of the at-most-three underlying commit attempts, in
order. -/
def expand (cfg : Config) (vm : Bool) (ok1 ok2 ok3 : Bool) (s : GenState)
    (bytes : Nat) : Bool × GenState :=
  let alignment := cfg.alignmentBytes
  let ab0 := alignUpW bytes alignment
  let aeb0 := alignUpW cfg.minHeapDeltaBytes alignment
  let aeb := if cfg.useNUMA then max aeb0 (alignment * cfg.numaGroups)
             else aeb0
  let ab := if ab0 = 0 then alignDown bytes alignment else ab0
  tryElse
    (tryElse (if aeb > ab then expand_by cfg vm ok1 s aeb else (false, s))
      (fun s1 => expand_by cfg vm ok2 s1 ab))
    (fun s2 => expand_to_reserved cfg vm ok3 s2)

/-- The raw target size of `PSOldGen::resize`: `used_in_bytes() +
desired_free_space` in `size_t` arithmetic, with the wrapped case detected
by `new_size < used_in_bytes()` and mapped to `max_gen_size()`. -/
def resize_new_size_raw (usedB desiredFree mx : Nat) : Nat :=
  let ns := (usedB + desiredFree) % powWord
  if ns < usedB then mx else ns

/-- The target size of `PSOldGen::resize`: the raw target, clamped to
`[min_gen_size(), max_gen_size()]`, then aligned up to the generation
alignment. -/
def resize_new_size (usedB desiredFree mn mx a : Nat) : Nat :=
  alignUpW (clampSz (resize_new_size_raw usedB desiredFree mx) mn mx) a

/-- `PSOldGen::resize(desired_free_space)`: compute the target size and
compare it to the current capacity (`capacity_in_bytes()` of the object
space); equal is a no-op, larger expands by the difference, smaller shrinks
by the difference. -/
def resize (cfg : Config) (vm : Bool) (ok1 ok2 ok3 : Bool) (s : GenState)
    (desiredFree : Nat) : GenState :=
  if resize_new_size (s.spaceTopB - s.lowB) desiredFree cfg.minGenBytes
      cfg.maxGenBytes cfg.alignmentBytes = s.spaceEnd - s.lowB then s
  else if s.spaceEnd - s.lowB <
      resize_new_size (s.spaceTopB - s.lowB) desiredFree cfg.minGenBytes
        cfg.maxGenBytes cfg.alignmentBytes then
    (expand cfg vm ok1 ok2 ok3 s
      (resize_new_size (s.spaceTopB - s.lowB) desiredFree cfg.minGenBytes
          cfg.maxGenBytes cfg.alignmentBytes -
        (s.spaceEnd - s.lowB))).2
  else
    shrink cfg vm s
      (s.spaceEnd - s.lowB -
        resize_new_size (s.spaceTopB - s.lowB) desiredFree cfg.minGenBytes
          cfg.maxGenBytes cfg.alignmentBytes)

/-- `PSOldGen::pretouch_during_allocation(alloc, alloc_size)`: `alloc` is a
byte address, `alloc_size` a HeapWord count (as in the source, whose
callers pass word sizes).  One cooperative pretouch attempt; in this
sequential model the single-shot `cmpxchg` always succeeds because the
observed old value is unchanged since its load.  `pointer_delta` returns
HeapWord units, hence the divisions by 8; `stride_align` is the stride in
bytes.  The claiming touch itself (`Atomic::add(touch, 0)`) only faults the
page and has no modelled state. -/
def pretouch_during_allocation (cfg : Config) (s : GenState)
    (alloc allocSize : Nat) : GenState :=
  if cfg.strideWords ≤ allocSize then s
  else
    let touch := s.pretouchNext
    let allocEnd := s.spaceEnd
    if allocEnd ≤ touch then s
    else
      let strideAlign := cfg.strideWords * 8
      let newAlloc := alloc + allocSize * 8
      if touch < newAlloc then
        if alignDown (allocEnd - 8) strideAlign < newAlloc then
          { s with pretouchNext := allocEnd }
        else
          let t := alignUp newAlloc strideAlign
          let nt := if (allocEnd - t) / 8 < cfg.strideWords then allocEnd
                    else t + cfg.strideWords * 8
          { s with pretouchNext := nt }
      else
        if cfg.limitWords < (touch - newAlloc) / 8 then s
        else
          let nt := if (allocEnd - touch) / 8 < cfg.strideWords then allocEnd
                    else touch + cfg.strideWords * 8
          { s with pretouchNext := nt }

/-! ### Block-partitioned object iteration

This section works in HeapWord units exactly as `object_iterate_block`
does: addresses are word addresses, object sizes are word counts, and the
only byte quantity, `IterateBlockSize`, is divided by `HeapWordSize = 8`
where the source does so.  The populated region is a contiguous parse:
objects of word sizes `szs` laid out from `bottom`, with
`top = bottom + szs.sum`. -/

/-- The object-start addresses of the contiguous parse of objects with word
sizes `szs` laid out from `bottom`. -/
def startsFrom (bottom : Nat) : List Nat → List Nat
  | [] => []
  | sz :: rest => bottom :: startsFrom (bottom + sz) rest

/-- Modelled from the spec: `oopDesc::size()` — every live object
self-reports its own word size.  `sizeAt bottom szs p` is the size of the
object of the parse starting at `p` (0 when `p` is not an object start; the
source never consults it there). -/
def sizeAt (bottom : Nat) : List Nat → Nat → Nat
  | [], _ => 0
  | sz :: rest, p => if p = bottom then sz else sizeAt (bottom + sz) rest p

/-- Modelled from the spec: `ObjectStartArray::object_start(addr)` — the
start address of the object containing or preceding `addr` (the
CoverageIndex collaborator, not under src/). -/
def object_start (bottom : Nat) : List Nat → Nat → Nat
  | [], _ => bottom
  | sz :: rest, addr =>
    if addr < bottom + sz then bottom else object_start (bottom + sz) rest addr

/-- Modelled from the spec: `ObjectStartArray::object_starts_in_range
(begin, end)` — whether any object starts within `[begin, end)`. -/
def object_starts_in_range (bottom : Nat) (szs : List Nat) (bg e : Nat) :
    Bool :=
  (startsFrom bottom szs).any fun s => decide (bg ≤ s) && decide (s < e)

/-- The `for (p = start; p < end; p += size(p))` loop of
`object_iterate_block`, fuel-bounded (fuel `szs.length + 1` suffices
whenever `p` is an object start of the parse or its top, which the source
asserts).  Returns the starts of the visited objects in visit order. -/
def walk (bottom : Nat) (szs : List Nat) : Nat → Nat → Nat → List Nat
  | _, _, 0 => []
  | p, e, fuel + 1 =>
    if p < e then p :: walk bottom szs (p + sizeAt bottom szs p) e fuel
    else []

/-- `PSOldGen::num_iterable_blocks`:
`(used_in_bytes() + IterateBlockSize - 1) / IterateBlockSize`, with
`used_in_bytes() = (top - bottom) * HeapWordSize`.  `ibs` is
`IterateBlockSize` in bytes. -/
def num_iterable_blocks (bottom top ibs : Nat) : Nat :=
  ((top - bottom) * 8 + ibs - 1) / ibs

/-- `PSOldGen::object_iterate_block(cl, block_index)` over the parse
`(bottom, szs)` with `top` the space's top:
`block_word_size = IterateBlockSize / HeapWordSize`, block bounds
`[begin, MIN2(top, begin + block_word_size))`; if no object starts in the
block, return; otherwise look up the object containing or reaching into the
block, step past it if it starts before the block, and walk to the block
end.  Returns the starts of the objects passed to the closure, in visit
order. -/
def object_iterate_block (bottom top : Nat) (szs : List Nat) (ibs i : Nat) :
    List Nat :=
  let bws := ibs / 8
  let bg := bottom + i * bws
  let e := min top (bg + bws)
  if object_starts_in_range bottom szs bg e then
    let st := object_start bottom szs bg
    let st2 := if st < bg then st + sizeAt bottom szs st else st
    walk bottom szs st2 e (szs.length + 1)
  else []

/-! ### Concrete sample configuration and state

The concrete generation of spec §8: reserved region 64 MiB, alignment
1 MiB, min 8 MiB, max 64 MiB, committed 16 MiB, used 10 MiB; pretouch
stride 4096 bytes = 512 words, 4 workers, so limit 2048 words.  Used by the
witnesses and counterexamples. -/

def cfgS : Config :=
  { alignmentBytes := 1048576, minHeapDeltaBytes := 1048576,
    useNUMA := false, numaGroups := 1, usePerfData := true,
    alwaysPreTouch := false, minGenBytes := 8388608,
    maxGenBytes := 67108864, strideWords := 512, limitWords := 2048 }

def stS : GenState :=
  { lowB := 0, reservedBytes := 67108864, committedBytes := 16777216,
    startCovB := 0, startCovE := 16777216, cardCovB := 0,
    cardCovE := 16777216, spaceTopB := 10485760, spaceEnd := 16777216,
    pretouchNext := 81920, counterUpdates := 0 }

/-! ### Basic facts about the alignment helpers -/

theorem alignDown_dvd (x a : Nat) : a ∣ alignDown x a :=
  dvd_mul_left a (x / a)

theorem alignUp_dvd (x a : Nat) : a ∣ alignUp x a :=
  dvd_mul_left a ((x + a - 1) / a)

theorem alignUpW_dvd (x a : Nat) : a ∣ alignUpW x a :=
  dvd_mul_left a (((x + a - 1) % powWord) / a)

theorem alignDown_le (x a : Nat) : alignDown x a ≤ x :=
  Nat.div_mul_le_self x a

theorem le_alignUp (x a : Nat) (ha : 0 < a) : x ≤ alignUp x a := by
  unfold alignUp
  have h1 := Nat.div_add_mod (x + a - 1) a
  have h2 := Nat.mod_lt (x + a - 1) ha
  have h3 : (x + a - 1) / a * a = a * ((x + a - 1) / a) := Nat.mul_comm _ _
  omega

theorem alignUp_of_dvd (x a : Nat) (ha : 0 < a) (hd : a ∣ x) :
    alignUp x a = x := by
  obtain ⟨k, rfl⟩ := hd
  unfold alignUp
  have : a * k + a - 1 = a * k + (a - 1) := by omega
  rw [this, Nat.mul_add_div ha, Nat.div_eq_of_lt (by omega), Nat.add_zero,
    Nat.mul_comm]

theorem alignUp_le (x y a : Nat) (ha : 0 < a) (hxy : x ≤ y) (hd : a ∣ y) :
    alignUp x a ≤ y := by
  calc alignUp x a ≤ alignUp y a := by
        unfold alignUp
        exact Nat.mul_le_mul_right a (Nat.div_le_div_right (by omega))
    _ = y := alignUp_of_dvd y a ha hd

theorem alignUpW_eq_alignUp (x a : Nat) (h : x + a ≤ powWord) :
    alignUpW x a = alignUp x a := by
  unfold alignUpW alignUp
  rw [Nat.mod_eq_of_lt (by unfold powWord at *; omega)]

/-- A multiple of `a` strictly below another multiple of `a` is at least
`a` below it. -/
theorem dvd_lt_le_sub {a x n : Nat} (hx : a ∣ x) (hn : a ∣ n)
    (h : x < n) : x ≤ n - a := by
  obtain ⟨k, rfl⟩ := hx
  obtain ⟨m, rfl⟩ := hn
  have hkm : k < m := lt_of_mul_lt_mul_left h (Nat.zero_le a)
  have : a * k ≤ a * (m - 1) := Nat.mul_le_mul_left a (by omega)
  have hm : a * (m - 1) = a * m - a := by
    cases m with
    | zero => omega
    | succ m => simp [Nat.mul_succ, Nat.succ_sub_one]
  omega

/-! ### C1: ordering of the resize synchronization -/

/-- C1.  In `post_resize`, for any state and either thread context, the
trace of side-structure mutations begins with the object-start index's
covered-region update, then the card table's covered-region update, both to
the new `[bottom, end)` region, and only then the publication of the new
`end`; no event after the publication mutates the region bounds (so the
publication is the last such mutation), and the resulting state has both
coverage structures and the object space's `end` agreeing on the new
region. -/
theorem c1_post_resize_order (cfg : Config) (s : GenState) (vm : Bool) :
    (post_resize cfg s vm).2.take 3 =
      [REvent.setStartCovered s.lowB (s.lowB + s.committedBytes),
       REvent.setCardCovered s.lowB (s.lowB + s.committedBytes),
       REvent.publishEnd (s.lowB + s.committedBytes)] ∧
    (∀ e ∈ (post_resize cfg s vm).2.drop 3, boundsMutation e = false) ∧
    (post_resize cfg s vm).1.startCovB = s.lowB ∧
    (post_resize cfg s vm).1.startCovE = s.lowB + s.committedBytes ∧
    (post_resize cfg s vm).1.cardCovB = s.lowB ∧
    (post_resize cfg s vm).1.cardCovE = s.lowB + s.committedBytes ∧
    (post_resize cfg s vm).1.spaceEnd = s.lowB + s.committedBytes := by
  cases vm <;> simp [post_resize, boundsMutation]

/-! ### C3: overflow detection in the resize target computation -/

/-- C3.  For every `used_bytes` and `desired_free_bytes` (values of
`size_t`, hence below `2 ^ 64`) whose sum wraps the machine word, the raw
target size of `resize` resolves to `max_gen_size()`, never to the
wrapped-around small value. -/
theorem c3_resize_overflow (usedB desiredFree mx : Nat)
    (hu : usedB < powWord) (hd : desiredFree < powWord)
    (hw : powWord ≤ usedB + desiredFree) :
    resize_new_size_raw usedB desiredFree mx = mx := by
  unfold resize_new_size_raw powWord at *
  have h64 : (2 : Nat) ^ 64 = 18446744073709551616 := by norm_num
  rw [h64] at hu hd hw ⊢
  show (if (usedB + desiredFree) % 18446744073709551616 < usedB then mx
        else (usedB + desiredFree) % 18446744073709551616) = mx
  split
  · rfl
  · omega

/-- Witness for C3 at a concrete wrapping input. -/
theorem c3_resize_overflow_witness :
    2 ^ 63 < powWord ∧ 2 ^ 63 + 5 < powWord ∧
    powWord ≤ 2 ^ 63 + (2 ^ 63 + 5) ∧
    resize_new_size_raw (2 ^ 63) (2 ^ 63 + 5) 77 = 77 :=
  ⟨by norm_num [powWord], by norm_num [powWord], by norm_num [powWord],
   c3_resize_overflow (2 ^ 63) (2 ^ 63 + 5) 77 (by norm_num [powWord])
     (by norm_num [powWord]) (by norm_num [powWord])⟩

theorem alignDown_of_dvd {x a : Nat} (hd : a ∣ x) : alignDown x a = x :=
  Nat.div_mul_cancel hd

theorem dvd_max {a x y : Nat} (hx : a ∣ x) (hy : a ∣ y) : a ∣ max x y := by
  rcases le_total x y with h | h
  · rwa [max_eq_right h]
  · rwa [max_eq_left h]

/-! ### State-change lemmas for the sizing operations -/

theorem post_resize_fields (cfg : Config) (s : GenState) (vm : Bool) :
    (post_resize cfg s vm).1.committedBytes = s.committedBytes ∧
    (post_resize cfg s vm).1.reservedBytes = s.reservedBytes ∧
    (post_resize cfg s vm).1.lowB = s.lowB ∧
    (post_resize cfg s vm).1.spaceTopB = s.spaceTopB ∧
    (post_resize cfg s vm).1.counterUpdates = s.counterUpdates := by
  cases vm <;> simp [post_resize]

/-- `expand_by` either fails leaving the state untouched, or succeeds
having committed exactly `bytes` more (a request that was within the
uncommitted remainder); no other state component relevant to sizing
changes. -/
theorem expand_by_state (cfg : Config) (vm ok : Bool) (s : GenState)
    (bytes : Nat) :
    expand_by cfg vm ok s bytes = (false, s) ∨
    (bytes ≤ s.reservedBytes - s.committedBytes ∧
     (expand_by cfg vm ok s bytes).1 = true ∧
     (expand_by cfg vm ok s bytes).2.committedBytes =
       s.committedBytes + bytes ∧
     (expand_by cfg vm ok s bytes).2.reservedBytes = s.reservedBytes ∧
     (expand_by cfg vm ok s bytes).2.lowB = s.lowB ∧
     (expand_by cfg vm ok s bytes).2.spaceTopB = s.spaceTopB) := by
  rcases hok : (ok && decide (bytes ≤ s.reservedBytes - s.committedBytes))
    with _ | _
  · left
    simp [expand_by, vsExpandBy, hok]
  · right
    have hle : bytes ≤ s.reservedBytes - s.committedBytes := by
      have h2 := (Bool.and_eq_true _ _).mp hok
      exact of_decide_eq_true h2.2
    refine ⟨hle, ?_, ?_, ?_, ?_, ?_⟩ <;>
      cases hup : cfg.usePerfData <;> cases vm <;>
        simp [expand_by, vsExpandBy, hok, post_resize, hup]

theorem tryElse_cases (r : Bool × GenState) (f : GenState → Bool × GenState) :
    (r.1 = true ∧ tryElse r f = r) ∨
    (r.1 = false ∧ tryElse r f = f r.2) := by
  rcases h : r.1 with _ | _
  · right; exact ⟨rfl, by simp [tryElse, h]⟩
  · left; exact ⟨rfl, by simp [tryElse, h]⟩

/-- `expand` either leaves the state untouched, or commits exactly one
alignment-multiple amount that was within the uncommitted remainder. -/
theorem expand_result_cases (cfg : Config) (vm o1 o2 o3 : Bool)
    (s : GenState) (bytes : Nat)
    (hc : cfg.alignmentBytes ∣ s.committedBytes)
    (hr : cfg.alignmentBytes ∣ s.reservedBytes) :
    (expand cfg vm o1 o2 o3 s bytes).2 = s ∨
    (∃ b, cfg.alignmentBytes ∣ b ∧
      b ≤ s.reservedBytes - s.committedBytes ∧
      (expand cfg vm o1 o2 o3 s bytes).2.committedBytes =
        s.committedBytes + b) := by
  have hdvd_aeb : cfg.alignmentBytes ∣
      (if cfg.useNUMA then
        max (alignUpW cfg.minHeapDeltaBytes cfg.alignmentBytes)
          (cfg.alignmentBytes * cfg.numaGroups)
      else alignUpW cfg.minHeapDeltaBytes cfg.alignmentBytes) := by
    split
    · exact dvd_max (alignUpW_dvd _ _) (Dvd.intro _ rfl)
    · exact alignUpW_dvd _ _
  have hdvd_ab : cfg.alignmentBytes ∣
      (if alignUpW bytes cfg.alignmentBytes = 0 then
        alignDown bytes cfg.alignmentBytes
      else alignUpW bytes cfg.alignmentBytes) := by
    split
    · exact alignDown_dvd _ _
    · exact alignUpW_dvd _ _
  set aeb := (if cfg.useNUMA then
      max (alignUpW cfg.minHeapDeltaBytes cfg.alignmentBytes)
        (cfg.alignmentBytes * cfg.numaGroups)
    else alignUpW cfg.minHeapDeltaBytes cfg.alignmentBytes) with haeb
  set ab := (if alignUpW bytes cfg.alignmentBytes = 0 then
      alignDown bytes cfg.alignmentBytes
    else alignUpW bytes cfg.alignmentBytes) with hab
  have hexp : expand cfg vm o1 o2 o3 s bytes =
      tryElse
        (tryElse (if aeb > ab then expand_by cfg vm o1 s aeb else (false, s))
          (fun s1 => expand_by cfg vm o2 s1 ab))
        (fun s2 => expand_to_reserved cfg vm o3 s2) := rfl
  set r1 := (if aeb > ab then expand_by cfg vm o1 s aeb else (false, s))
    with hr1
  -- The first attempt either succeeds from `s` or leaves `s` untouched.
  have step1 : (r1.1 = false ∧ r1.2 = s) ∨
      (r1.1 = true ∧ ∃ b, cfg.alignmentBytes ∣ b ∧
        b ≤ s.reservedBytes - s.committedBytes ∧
        r1.2.committedBytes = s.committedBytes + b) := by
    rw [hr1]
    split
    · rcases expand_by_state cfg vm o1 s aeb with h | h
      · left; rw [h]; exact ⟨rfl, rfl⟩
      · right; exact ⟨h.2.1, aeb, hdvd_aeb, h.1, h.2.2.1⟩
    · left; exact ⟨rfl, rfl⟩
  set r2 := tryElse r1 (fun s1 => expand_by cfg vm o2 s1 ab) with hr2
  have step2 : (r2.1 = false ∧ r2.2 = s) ∨
      (r2.1 = true ∧ ∃ b, cfg.alignmentBytes ∣ b ∧
        b ≤ s.reservedBytes - s.committedBytes ∧
        r2.2.committedBytes = s.committedBytes + b) := by
    rcases tryElse_cases r1 (fun s1 => expand_by cfg vm o2 s1 ab)
      with ⟨ht, he⟩ | ⟨ht, he⟩
    · rcases step1 with ⟨hf, _⟩ | ⟨_, hb⟩
      · rw [ht] at hf; cases hf
      · right
        rw [hr2, he]
        exact ⟨ht, hb⟩
    · rcases step1 with ⟨_, hs⟩ | ⟨ht1, _⟩
      · rw [hr2, he, hs]
        rcases expand_by_state cfg vm o2 s ab with h | h
        · left; rw [h]; exact ⟨rfl, rfl⟩
        · right; exact ⟨h.2.1, ab, hdvd_ab, h.1, h.2.2.1⟩
      · rw [ht1] at ht; cases ht
  rw [hexp]
  rcases tryElse_cases r2 (fun s2 => expand_to_reserved cfg vm o3 s2)
    with ⟨ht, he⟩ | ⟨ht, he⟩
  · rcases step2 with ⟨hf, _⟩ | ⟨_, b, hb1, hb2, hb3⟩
    · rw [ht] at hf; cases hf
    · right; exact ⟨b, hb1, hb2, by rw [he]; exact hb3⟩
  · rcases step2 with ⟨_, hs⟩ | ⟨ht2, _⟩
    · rw [he, hs]
      unfold expand_to_reserved
      split
      · rcases expand_by_state cfg vm o3 s
          (s.reservedBytes - s.committedBytes) with h | h
        · left; rw [h]
        · right
          exact ⟨s.reservedBytes - s.committedBytes,
            Nat.dvd_sub' hr hc, le_refl _, h.2.2.1⟩
      · left; rfl
    · rw [ht2] at ht; cases ht

/-- What `shrink` does to the committed size (note the raw `bytes`). -/
theorem shrink_committed (cfg : Config) (vm : Bool) (s : GenState)
    (bytes : Nat) :
    (shrink cfg vm s bytes).committedBytes =
      if 0 < alignDown bytes cfg.alignmentBytes then
        s.committedBytes - bytes
      else s.committedBytes := by
  unfold shrink
  split <;> rename_i h
  · rw [if_pos h]
    cases vm <;> simp [post_resize, vsShrinkBy]
  · rw [if_neg h]

/-! ### C10: failed commit in expand_by mutates nothing -/

/-- C10.  If the virtual-memory collaborator's commit fails inside
`expand_by` — because the operating system refuses the commit (`ok =
false`) or the request exceeds the uncommitted remainder — then `expand_by`
returns `false` and the state is exactly unchanged: in particular the
committed region, the coverage structures' covered ranges, the object
space's `end`, the pretouch cursor, and the performance counters are all
untouched (resize synchronization and counter updates run only on commit
success). -/
theorem c10_expand_by_fail_no_mutation (cfg : Config) (vm ok : Bool)
    (s : GenState) (bytes : Nat)
    (h : ok = false ∨ s.reservedBytes - s.committedBytes < bytes) :
    expand_by cfg vm ok s bytes = (false, s) := by
  have hc : (ok && decide (bytes ≤ s.reservedBytes - s.committedBytes))
      = false := by
    rcases h with h | h
    · simp [h]
    · simp [Nat.not_le.mpr h]
  simp [expand_by, vsExpandBy, hc]

/-- Witness for C10: a commit refusal at a concrete state leaves the state
untouched. -/
theorem c10_witness :
    ((false : Bool) = false ∨ stS.reservedBytes - stS.committedBytes < 5) ∧
    expand_by cfgS true false stS 5 = (false, stS) :=
  ⟨Or.inl rfl,
   c10_expand_by_fail_no_mutation cfgS true false stS 5 (Or.inl rfl)⟩

/-! ### C5: expand_to_reserved at the ceiling -/

/-- C5, counterexample.  At the reserved ceiling (uncommitted capacity
zero), `expand_to_reserved` returns `false`, not `true` as the claim
states: the source initializes `result = false` and only the
`remaining_bytes > 0` branch can set it. -/
theorem c5_counterexample :
    (expand_to_reserved cfgS true true
      { stS with committedBytes := 67108864 }).1 = false := by
  decide

/-- C5 as amended.  `expand_to_reserved()` expands the committed region by
exactly the remaining uncommitted capacity when that capacity is nonzero
(and the underlying commit succeeds, reaching the reserved ceiling), and
when the generation is already at the reserved ceiling it is a no-op that
reports failure (returns `false`). -/
theorem c5_expand_to_reserved (cfg : Config) (vm ok : Bool) (s : GenState)
    (hcr : s.committedBytes ≤ s.reservedBytes) :
    (s.reservedBytes - s.committedBytes = 0 →
      expand_to_reserved cfg vm ok s = (false, s)) ∧
    (ok = true → 0 < s.reservedBytes - s.committedBytes →
      (expand_to_reserved cfg vm ok s).1 = true ∧
      (expand_to_reserved cfg vm ok s).2.committedBytes =
        s.reservedBytes) := by
  constructor
  · intro h0
    unfold expand_to_reserved
    rw [if_neg (by omega)]
  · intro hok hrem
    subst hok
    unfold expand_to_reserved
    rw [if_pos hrem]
    rcases expand_by_state cfg vm true s
      (s.reservedBytes - s.committedBytes) with h | h
    · have hfalse : (expand_by cfg vm true s
          (s.reservedBytes - s.committedBytes)).1 = true := by
        simp [expand_by, vsExpandBy]
      rw [h] at hfalse
      cases hfalse
    · exact ⟨h.2.1, by rw [h.2.2.1]; omega⟩

/-- Witness for C5's amended theorem, at the concrete sample generation
(16 MiB committed of 64 MiB reserved) and at the same generation fully
committed. -/
theorem c5_witness :
    stS.committedBytes ≤ stS.reservedBytes ∧
    ((true : Bool) = true → 0 < stS.reservedBytes - stS.committedBytes →
      (expand_to_reserved cfgS true true stS).1 = true ∧
      (expand_to_reserved cfgS true true stS).2.committedBytes =
        stS.reservedBytes) :=
  ⟨by decide, (c5_expand_to_reserved cfgS true true stS (by decide)).2⟩

/-! ### C4: shrink passes the raw byte count to the uncommit -/

/-- C4: the source computes the alignment-rounded `size` and checks it for
zero, but then calls `PSVirtualSpace::shrink_by(bytes)` with the raw,
un-rounded request.  At alignment 1 MiB, committed 16 MiB, a request of
1 MiB + 8 bytes uncommits 1 MiB + 8 (leaving `16 MiB - (1 MiB + 8)`, not
the `16 MiB - 1 MiB` the claim requires), and leaves the committed size no
longer a multiple of the alignment — breaking the committed-region
alignment invariant the rest of the sizing code relies on. -/
theorem c4_shrink_raw_bytes :
    (shrink cfgS true stS 1048584).committedBytes = 15728632 ∧
    stS.committedBytes - alignDown 1048584 cfgS.alignmentBytes
      = 15728640 ∧
    (15728632 : Nat) ≠ 15728640 ∧
    ¬ (cfgS.alignmentBytes ∣
        (shrink cfgS true stS 1048584).committedBytes) := by
  refine ⟨by decide, by decide, by decide, ?_⟩
  decide

/-! ### C2: resize keeps the committed size within bounds and aligned -/

/-- The resize target is within `[min, max]` and alignment-aligned whenever
the bounds are themselves aligned, ordered, and representable. -/
theorem resize_new_size_bounds (usedB df mn mx a : Nat) (ha : 0 < a)
    (haw : a ∣ powWord) (hmxd : a ∣ mx) (hmm : mn ≤ mx)
    (hmxw : mx < powWord) :
    mn ≤ resize_new_size usedB df mn mx a ∧
    resize_new_size usedB df mn mx a ≤ mx ∧
    a ∣ resize_new_size usedB df mn mx a := by
  have hamx : mx ≤ powWord - a := dvd_lt_le_sub hmxd haw hmxw
  have hapw : a ≤ powWord := Nat.le_of_dvd (by unfold powWord; positivity) haw
  have key : ∀ v, mn ≤ v → v ≤ mx →
      mn ≤ alignUpW v a ∧ alignUpW v a ≤ mx ∧ a ∣ alignUpW v a := by
    intro v hv1 hv2
    have heq : alignUpW v a = alignUp v a :=
      alignUpW_eq_alignUp v a (by omega)
    rw [heq]
    exact ⟨le_trans hv1 (le_alignUp v a ha), alignUp_le v mx a ha hv2 hmxd,
      alignUp_dvd v a⟩
  exact key (clampSz (resize_new_size_raw usedB df mx) mn mx)
    (le_min (le_max_right _ _) hmm) (min_le_right _ _)

/-- C2.  For every valid configuration — aligned, ordered size bounds, the
reserved ceiling at most `max_gen_size()` (as the source asserts), a
committed size within bounds and in sync with the object space's `end` —
and every `desired_free` value, after `resize(desired_free)` completes the
committed size satisfies `min_size ≤ committed ≤ max_size` and is a
multiple of the alignment unit: the align-up of the clamped target never
drives the committed size past `max_size` (every successful commit stays
within the reserved ceiling, which is at most `max_size`) and shrinking
stops exactly at the clamped-and-aligned target, which is at least
`min_size`. -/
theorem c2_resize_bounds (cfg : Config) (vm o1 o2 o3 : Bool) (s : GenState)
    (desiredFree : Nat)
    (ha : 0 < cfg.alignmentBytes)
    (haw : cfg.alignmentBytes ∣ powWord)
    (hmxd : cfg.alignmentBytes ∣ cfg.maxGenBytes)
    (hcd : cfg.alignmentBytes ∣ s.committedBytes)
    (hrd : cfg.alignmentBytes ∣ s.reservedBytes)
    (hmm : cfg.minGenBytes ≤ cfg.maxGenBytes)
    (hmc : cfg.minGenBytes ≤ s.committedBytes)
    (hcr : s.committedBytes ≤ s.reservedBytes)
    (hrm : s.reservedBytes ≤ cfg.maxGenBytes)
    (hmxw : cfg.maxGenBytes < powWord)
    (hsync : s.spaceEnd = s.lowB + s.committedBytes) :
    cfg.minGenBytes ≤
      (resize cfg vm o1 o2 o3 s desiredFree).committedBytes ∧
    (resize cfg vm o1 o2 o3 s desiredFree).committedBytes ≤
      cfg.maxGenBytes ∧
    cfg.alignmentBytes ∣
      (resize cfg vm o1 o2 o3 s desiredFree).committedBytes := by
  have hcur : s.spaceEnd - s.lowB = s.committedBytes := by omega
  obtain ⟨hns1, hns2, hnsd⟩ := resize_new_size_bounds
    (s.spaceTopB - s.lowB) desiredFree cfg.minGenBytes cfg.maxGenBytes
    cfg.alignmentBytes ha haw hmxd hmm hmxw
  set ns := resize_new_size (s.spaceTopB - s.lowB) desiredFree
    cfg.minGenBytes cfg.maxGenBytes cfg.alignmentBytes with hns
  unfold resize
  rw [← hns, hcur]
  by_cases h1 : ns = s.committedBytes
  · rw [if_pos h1]
    exact ⟨hmc, le_trans hcr hrm, hcd⟩
  · rw [if_neg h1]
    by_cases h2 : s.committedBytes < ns
    · rw [if_pos h2]
      rcases expand_result_cases cfg vm o1 o2 o3 s (ns - s.committedBytes)
        hcd hrd with h | ⟨b, hb1, hb2, hb3⟩
      · rw [h]
        exact ⟨hmc, le_trans hcr hrm, hcd⟩
      · rw [hb3]
        exact ⟨by omega, by omega, dvd_add hcd hb1⟩
    · rw [if_neg h2]
      have hlt : ns < s.committedBytes := by omega
      have hsub : alignDown (s.committedBytes - ns) cfg.alignmentBytes
          = s.committedBytes - ns :=
        alignDown_of_dvd (Nat.dvd_sub' hcd hnsd)
      rw [shrink_committed, hsub, if_pos (by omega)]
      have heq : s.committedBytes - (s.committedBytes - ns) = ns := by omega
      rw [heq]
      exact ⟨hns1, hns2, hnsd⟩

/-- Witness for C2: the spec §8 concrete generation (alignment 1 MiB, min
8 MiB, max = reserved = 64 MiB, committed 16 MiB, used 10 MiB) resized with
`desired_free` = 20 MiB. -/
theorem c2_witness :
    0 < cfgS.alignmentBytes ∧
    cfgS.minGenBytes ≤
      (resize cfgS true true true true stS 20971520).committedBytes ∧
    (resize cfgS true true true true stS 20971520).committedBytes ≤
      cfgS.maxGenBytes ∧
    cfgS.alignmentBytes ∣
      (resize cfgS true true true true stS 20971520).committedBytes :=
  ⟨by decide,
   c2_resize_bounds cfgS true true true true stS 20971520 (by decide)
     (by decide) (by decide) (by decide) (by decide) (by decide)
     (by decide) (by decide) (by decide) (by norm_num [cfgS, powWord])
     (by decide)⟩

/-! ### Pretouch cursor lemmas -/

theorem mul8_le_of_le_div8 {x sw : Nat} (h : sw ≤ x / 8) : sw * 8 ≤ x :=
  (Nat.le_div_iff_mul_le (by norm_num)).mp h

/-- A single `pretouch_during_allocation` call never moves the cursor
backward, only installs values at most the loaded `end`, and changes no
other state component. -/
theorem pretouch_spec (cfg : Config) (s : GenState) (alloc n : Nat)
    (hst : 0 < cfg.strideWords) :
    s.pretouchNext ≤
      (pretouch_during_allocation cfg s alloc n).pretouchNext ∧
    ((pretouch_during_allocation cfg s alloc n).pretouchNext ≠
        s.pretouchNext →
      (pretouch_during_allocation cfg s alloc n).pretouchNext ≤
        s.spaceEnd) ∧
    (pretouch_during_allocation cfg s alloc n).spaceEnd = s.spaceEnd ∧
    (pretouch_during_allocation cfg s alloc n).lowB = s.lowB := by
  have hsa : 0 < cfg.strideWords * 8 := by positivity
  unfold pretouch_during_allocation
  dsimp only
  split
  · exact ⟨le_refl _, fun h => absurd rfl h, rfl, rfl⟩
  · split
    · exact ⟨le_refl _, fun h => absurd rfl h, rfl, rfl⟩
    · rename_i hnle
      have htl : s.pretouchNext < s.spaceEnd := Nat.not_le.mp hnle
      split
      · -- our own allocation has outrun the cursor
        split
        · -- into the last page: install the loaded end
          exact ⟨by dsimp only; omega, fun _ => le_refl _, rfl, rfl⟩
        · rename_i hgt hko
          have htup : alloc + n * 8 ≤
              alignUp (alloc + n * 8) (cfg.strideWords * 8) :=
            le_alignUp _ _ hsa
          split
          · -- clamped to the loaded end
            exact ⟨by dsimp only; omega, fun _ => le_refl _, rfl, rfl⟩
          · rename_i hfar
            have hdiv : cfg.strideWords * 8 ≤
                s.spaceEnd - alignUp (alloc + n * 8) (cfg.strideWords * 8) :=
              mul8_le_of_le_div8 (Nat.not_lt.mp hfar)
            exact ⟨by dsimp only; omega, fun _ => by dsimp only; omega,
              rfl, rfl⟩
      · split
        · -- cursor far enough ahead: no work
          exact ⟨le_refl _, fun h => absurd rfl h, rfl, rfl⟩
        · split
          · -- clamped to the loaded end
            exact ⟨by dsimp only; omega, fun _ => le_refl _, rfl, rfl⟩
          · rename_i hfar
            have hdiv : cfg.strideWords * 8 ≤
                s.spaceEnd - s.pretouchNext :=
              mul8_le_of_le_div8 (Nat.not_lt.mp hfar)
            exact ⟨by dsimp only; omega, fun _ => by dsimp only; omega,
              rfl, rfl⟩

/-- The cursor is non-decreasing across any sequence of pretouch calls. -/
theorem pretouch_fold_mono (cfg : Config) (hst : 0 < cfg.strideWords) :
    ∀ (calls : List (Nat × Nat)) (s : GenState),
      s.pretouchNext ≤
        (calls.foldl
          (fun t c => pretouch_during_allocation cfg t c.1 c.2)
          s).pretouchNext := by
  intro calls
  induction calls with
  | nil => intro s; exact le_refl _
  | cons c cs ih =>
    intro s
    exact le_trans (pretouch_spec cfg s c.1 c.2 hst).1
      (ih (pretouch_during_allocation cfg s c.1 c.2))

/-! ### C6: pretouch cursor monotonicity -/

/-- C6.  Across any sequence of `pretouch_during_allocation` calls the
pretouch cursor is non-decreasing, and each single call — whose
compare-and-swap, in this sequential model, installs the new value against
the observed old value — installs a value greater than or equal to the
observed old value and never exceeding the object space's current
`end`. -/
theorem c6_pretouch_monotone (cfg : Config) (hst : 0 < cfg.strideWords) :
    (∀ (calls : List (Nat × Nat)) (s : GenState),
      s.pretouchNext ≤
        (calls.foldl
          (fun t c => pretouch_during_allocation cfg t c.1 c.2)
          s).pretouchNext) ∧
    (∀ (s : GenState) (alloc n : Nat),
      s.pretouchNext ≤
        (pretouch_during_allocation cfg s alloc n).pretouchNext ∧
      ((pretouch_during_allocation cfg s alloc n).pretouchNext ≠
          s.pretouchNext →
        (pretouch_during_allocation cfg s alloc n).pretouchNext ≤
          s.spaceEnd)) := by
  refine ⟨pretouch_fold_mono cfg hst, fun s alloc n => ?_⟩
  exact ⟨(pretouch_spec cfg s alloc n hst).1,
    (pretouch_spec cfg s alloc n hst).2.1⟩

/-- Witness for C6 at the sample generation and a concrete call
sequence. -/
theorem c6_witness :
    0 < cfgS.strideWords ∧
    stS.pretouchNext ≤
      ([(81920, 64), (82400, 64)].foldl
        (fun t c => pretouch_during_allocation cfgS t c.1 c.2)
        stS).pretouchNext :=
  ⟨by decide,
   (c6_pretouch_monotone cfgS (by decide)).1 [(81920, 64), (82400, 64)] stS⟩

/-! ### C7: cursor across the generation lifetime -/

/-- C7, counterexample.  A resize that shrinks the committed region below
the cursor, performed on the VM thread (worker pool available, so the
pretouch-cursor update of `post_resize` runs), moves the cursor backward —
refuting "on resize it is reset forward, never backward": committed shrinks
to 8192 bytes while the cursor is at 81920, and `post_resize` stores
`MIN2(new end, old cursor) = 8192 < 81920`. -/
theorem c7_counterexample :
    (post_resize cfgS { stS with committedBytes := 8192 } true).1.pretouchNext
      < ({ stS with committedBytes := 8192 } : GenState).pretouchNext := by
  decide

/-- C7 as amended.  The pretouch cursor never moves backward during
`pretouch_during_allocation` calls and, when such a call changes it, the
new value does not exceed the object space's current `end`; starting at or
above `bottom` it stays at or above `bottom`.  On a resize performed with a
worker pool available the cursor is stored as the new `end` when
`AlwaysPreTouch` is set and otherwise as `MIN2(old cursor, new end)` — so
it is clamped to the new `end` (moving backward when the region shrinks
below it) and stays within `[bottom, end]`; a resize driven by an
allocating thread leaves the cursor untouched. -/
theorem c7_pretouch_cursor (cfg : Config) (s : GenState) (vm : Bool)
    (alloc n : Nat) (hst : 0 < cfg.strideWords)
    (hbc : s.lowB ≤ s.pretouchNext) :
    (s.pretouchNext ≤
        (pretouch_during_allocation cfg s alloc n).pretouchNext ∧
      s.lowB ≤ (pretouch_during_allocation cfg s alloc n).pretouchNext ∧
      ((pretouch_during_allocation cfg s alloc n).pretouchNext ≠
          s.pretouchNext →
        (pretouch_during_allocation cfg s alloc n).pretouchNext ≤
          s.spaceEnd)) ∧
    (vm = true →
      (post_resize cfg s vm).1.pretouchNext ≤
          s.lowB + s.committedBytes ∧
        s.lowB ≤ (post_resize cfg s vm).1.pretouchNext) ∧
    (vm = false →
      (post_resize cfg s vm).1.pretouchNext = s.pretouchNext) := by
  refine ⟨⟨(pretouch_spec cfg s alloc n hst).1,
    le_trans hbc (pretouch_spec cfg s alloc n hst).1,
    (pretouch_spec cfg s alloc n hst).2.1⟩, ?_, ?_⟩
  · intro hvm
    subst hvm
    have heq : (post_resize cfg s true).1.pretouchNext =
        if cfg.alwaysPreTouch then s.lowB + s.committedBytes
        else min (s.lowB + s.committedBytes) s.pretouchNext := by
      simp [post_resize]
    rw [heq]
    constructor
    · split
      · exact le_refl _
      · exact min_le_left _ _
    · split
      · exact Nat.le_add_right _ _
      · exact le_min (Nat.le_add_right _ _) hbc
  · intro hvm
    subst hvm
    simp [post_resize]

/-- Witness for C7's amended theorem at the sample generation. -/
theorem c7_witness :
    (0 < cfgS.strideWords ∧ stS.lowB ≤ stS.pretouchNext) ∧
    ((true : Bool) = true →
      (post_resize cfgS stS true).1.pretouchNext ≤
          stS.lowB + stS.committedBytes ∧
        stS.lowB ≤ (post_resize cfgS stS true).1.pretouchNext) :=
  ⟨⟨by decide, by decide⟩,
   (c7_pretouch_cursor cfgS stS true 82400 64 (by decide) (by decide)).2.1⟩

/-! ### C8: concrete pretouch scenarios -/

/-- C8, counterexample.  With stride 512 words and limit 2048 words, an
allocation of 64 words at an address 600 words (4800 bytes) behind the
current cursor leaves the cursor only 536 words ahead of the allocation
end — within, not beyond, the limit window — so the call does NOT return
without advancing: it advances the cursor by one stride, from 81920 to
86016. -/
theorem c8_counterexample :
    (pretouch_during_allocation cfgS { stS with spaceEnd := 8000000 }
      77120 64).pretouchNext = 86016 ∧
    ({ stS with spaceEnd := 8000000 } : GenState).pretouchNext = 81920 ∧
    (86016 : Nat) ≠ 81920 := by
  refine ⟨by decide, by decide, by decide⟩

/-- C8 as amended.  With a pretouch stride of 512 words (4096-byte pages,
8-byte words) and 4 worker threads (limit 2048 words): a call for an
allocation of 64 words whose address is 600 words behind the cursor (the
cursor is 536 words ahead of the allocation end, within the limit window)
advances the cursor by exactly one stride; a call whose allocation end
leaves the cursor more than 2048 words ahead returns without advancing the
cursor; and a call whose allocation end is past the cursor advances the
cursor to one stride beyond the allocation end aligned up to the
stride. -/
theorem c8_scenarios :
    (pretouch_during_allocation cfgS { stS with spaceEnd := 8000000 }
        77120 64).pretouchNext = stS.pretouchNext + 4096 ∧
    (pretouch_during_allocation cfgS { stS with spaceEnd := 8000000 }
        65016 64).pretouchNext = stS.pretouchNext ∧
    (pretouch_during_allocation cfgS { stS with spaceEnd := 8000000 }
        82400 64).pretouchNext =
      alignUp (82400 + 64 * 8) (512 * 8) + 4096 := by
  refine ⟨by decide, by decide, by decide⟩

/-! ### C9: block iteration visits every object exactly once -/

theorem mem_startsFrom_ge :
    ∀ (szs : List Nat) (b s : Nat), s ∈ startsFrom b szs → b ≤ s := by
  intro szs
  induction szs with
  | nil => intro b s h; cases h
  | cons sz rest ih =>
    intro b s h
    rcases List.mem_cons.mp h with rfl | h'
    · exact le_refl _
    · exact le_trans (Nat.le_add_right b sz) (ih (b + sz) s h')

theorem mem_startsFrom_lt :
    ∀ (szs : List Nat) (b s : Nat), (∀ x ∈ szs, 0 < x) →
      s ∈ startsFrom b szs → s < b + szs.sum := by
  intro szs
  induction szs with
  | nil => intro b s _ h; cases h
  | cons sz rest ih =>
    intro b s hpos h
    have hszpos : 0 < sz := hpos sz (List.mem_cons_self _ _)
    have hpos' : ∀ x ∈ rest, 0 < x :=
      fun x hx => hpos x (List.mem_cons_of_mem _ hx)
    rw [List.sum_cons]
    rcases List.mem_cons.mp h with rfl | h'
    · have : 0 ≤ rest.sum := Nat.zero_le _
      omega
    · have := ih (b + sz) s hpos' h'
      omega

theorem startsFrom_pairwise :
    ∀ (szs : List Nat) (b : Nat), (∀ x ∈ szs, 0 < x) →
      (startsFrom b szs).Pairwise (· < ·) := by
  intro szs
  induction szs with
  | nil => intro b _; exact List.Pairwise.nil
  | cons sz rest ih =>
    intro b hpos
    have hszpos : 0 < sz := hpos sz (List.mem_cons_self _ _)
    have hpos' : ∀ x ∈ rest, 0 < x :=
      fun x hx => hpos x (List.mem_cons_of_mem _ hx)
    refine List.Pairwise.cons ?_ (ih (b + sz) hpos')
    intro y hy
    have := mem_startsFrom_ge rest (b + sz) y hy
    omega

/-- The object-start lookup finds the object containing `addr`, and no
start at or below `addr` lies above it. -/
theorem object_start_spec :
    ∀ (szs : List Nat) (b addr : Nat), (∀ x ∈ szs, 0 < x) →
      b ≤ addr → addr < b + szs.sum →
      object_start b szs addr ∈ startsFrom b szs ∧
      object_start b szs addr ≤ addr ∧
      addr < object_start b szs addr +
        sizeAt b szs (object_start b szs addr) ∧
      ∀ u ∈ startsFrom b szs, u ≤ addr → u ≤ object_start b szs addr := by
  intro szs
  induction szs with
  | nil =>
    intro b addr _ h1 h2
    rw [List.sum_nil] at h2
    omega
  | cons sz rest ih =>
    intro b addr hpos h1 h2
    have hszpos : 0 < sz := hpos sz (List.mem_cons_self _ _)
    have hpos' : ∀ x ∈ rest, 0 < x :=
      fun x hx => hpos x (List.mem_cons_of_mem _ hx)
    by_cases hc : addr < b + sz
    · simp only [object_start, if_pos hc]
      refine ⟨List.mem_cons_self _ _, h1, ?_, ?_⟩
      · simp only [sizeAt, if_pos rfl]
        exact hc
      · intro u hu hua
        rcases List.mem_cons.mp hu with rfl | hu'
        · exact le_refl _
        · have := mem_startsFrom_ge rest (b + sz) u hu'
          omega
    · simp only [object_start, if_neg hc]
      have h1' : b + sz ≤ addr := Nat.not_lt.mp hc
      have h2' : addr < (b + sz) + rest.sum := by
        rw [List.sum_cons] at h2
        omega
      obtain ⟨hm, hle, hlt, hmax⟩ := ih (b + sz) addr hpos' h1' h2'
      have hge : b + sz ≤ object_start (b + sz) rest addr :=
        mem_startsFrom_ge rest (b + sz) _ hm
      have hne : object_start (b + sz) rest addr ≠ b := by omega
      refine ⟨List.mem_cons_of_mem _ hm, hle, ?_, ?_⟩
      · simp only [sizeAt, if_neg hne]
        exact hlt
      · intro u hu hua
        rcases List.mem_cons.mp hu with rfl | hu'
        · omega
        · exact hmax u hu' hua

/-- Stepping past an object by its self-reported size lands on the next
object start (or on the parse's top), and skips no start. -/
theorem next_start_spec :
    ∀ (szs : List Nat) (b p : Nat), (∀ x ∈ szs, 0 < x) →
      p ∈ startsFrom b szs →
      (p + sizeAt b szs p ∈ startsFrom b szs ∨
        p + sizeAt b szs p = b + szs.sum) ∧
      p < p + sizeAt b szs p ∧
      ∀ u ∈ startsFrom b szs, p < u → p + sizeAt b szs p ≤ u := by
  intro szs
  induction szs with
  | nil => intro b p _ hp; cases hp
  | cons sz rest ih =>
    intro b p hpos hp
    have hszpos : 0 < sz := hpos sz (List.mem_cons_self _ _)
    have hpos' : ∀ x ∈ rest, 0 < x :=
      fun x hx => hpos x (List.mem_cons_of_mem _ hx)
    rcases List.mem_cons.mp hp with rfl | hp'
    · have hsz : sizeAt p (sz :: rest) p = sz := by
        simp [sizeAt]
      rw [hsz]
      refine ⟨?_, by omega, ?_⟩
      · cases rest with
        | nil =>
          right
          rw [List.sum_cons, List.sum_nil]
          omega
        | cons sz2 r2 =>
          left
          exact List.mem_cons_of_mem _ (List.mem_cons_self _ _)
      · intro u hu hlt
        rcases List.mem_cons.mp hu with rfl | hu'
        · omega
        · exact mem_startsFrom_ge _ _ _ hu'
    · have hb : b + sz ≤ p := mem_startsFrom_ge _ _ _ hp'
      have hne : p ≠ b := by omega
      have hs : sizeAt b (sz :: rest) p = sizeAt (b + sz) rest p := by
        simp only [sizeAt, if_neg hne]
      rw [hs]
      obtain ⟨h1, h2, h3⟩ := ih (b + sz) p hpos' hp'
      refine ⟨?_, h2, ?_⟩
      · rcases h1 with h | h
        · left
          exact List.mem_cons_of_mem _ h
        · right
          rw [h, List.sum_cons]
          omega
      · intro u hu hlt
        rcases List.mem_cons.mp hu with rfl | hu'
        · omega
        · exact h3 u hu' hlt

/-- The walk never consults the head object once the position is past it,
so the head can be peeled off the parse. -/
theorem walk_shift :
    ∀ (fuel : Nat) (rest : List Nat) (b sz p e : Nat), 0 < sz →
      b + sz ≤ p →
      walk b (sz :: rest) p e fuel = walk (b + sz) rest p e fuel := by
  intro fuel
  induction fuel with
  | zero => intros; rfl
  | succ f ih =>
    intro rest b sz p e hsz hbp
    simp only [walk]
    by_cases hpe : p < e
    · rw [if_pos hpe, if_pos hpe]
      have hne : p ≠ b := by omega
      have hs : sizeAt b (sz :: rest) p = sizeAt (b + sz) rest p := by
        simp only [sizeAt, if_neg hne]
      rw [hs]
      congr 1
      exact ih rest b sz (p + sizeAt (b + sz) rest p) e hsz (by omega)
    · rw [if_neg hpe, if_neg hpe]

/-- The bounded walk from an object start (or the top) up to `e` visits
exactly the starts in `[p, e)`, in order. -/
theorem walk_eq :
    ∀ (szs : List Nat) (b p e fuel : Nat), (∀ x ∈ szs, 0 < x) →
      (p ∈ startsFrom b szs ∨ p = b + szs.sum) → e ≤ b + szs.sum →
      szs.length < fuel →
      walk b szs p e fuel = (startsFrom b szs).filter
        (fun s => decide (p ≤ s) && decide (s < e)) := by
  intro szs
  induction szs with
  | nil =>
    intro b p e fuel _ hp he hf
    rcases hp with hp | hp
    · cases hp
    · rw [List.sum_nil] at hp he
      cases fuel with
      | zero => omega
      | succ f =>
        simp only [startsFrom, List.filter_nil, walk]
        rw [if_neg (by omega)]
  | cons sz rest ih =>
    intro b p e fuel hpos hp he hf
    have hszpos : 0 < sz := hpos sz (List.mem_cons_self _ _)
    have hpos' : ∀ x ∈ rest, 0 < x :=
      fun x hx => hpos x (List.mem_cons_of_mem _ hx)
    rw [List.sum_cons] at he
    cases fuel with
    | zero => simp at hf
    | succ f =>
    have hf' : rest.length < f := by
      simp only [List.length_cons] at hf
      omega
    have htail : ∀ q, b + sz ≤ q →
        (q ∈ startsFrom (b + sz) rest ∨ q = (b + sz) + rest.sum) →
        walk (b + sz) rest q e f = (startsFrom b (sz :: rest)).filter
          (fun s => decide (q ≤ s) && decide (s < e)) := by
      intro q hq hqm
      rw [ih (b + sz) q e f hpos' hqm (by omega) hf']
      show _ = List.filter _ (b :: startsFrom (b + sz) rest)
      rw [List.filter_cons]
      have hhead : (decide (q ≤ b) && decide (b < e)) = false := by
        have : ¬ q ≤ b := by omega
        simp [this]
      rw [hhead]
      simp only [Bool.false_eq_true, if_false]
    rcases hp with hp | hp
    · rcases List.mem_cons.mp hp with rfl | hp'
      · -- p = b: visit the head object, then the tail from b + sz
        by_cases hbe : p < e
        · simp only [walk]
          rw [if_pos hbe]
          have hsz : sizeAt p (sz :: rest) p = sz := by simp [sizeAt]
          rw [hsz,
            walk_shift f rest p sz (p + sz) e hszpos (le_refl _)]
          have hmem : (p + sz) ∈ startsFrom (p + sz) rest ∨
              p + sz = (p + sz) + rest.sum := by
            cases rest with
            | nil => right; rw [List.sum_nil]; omega
            | cons sz2 r2 => left; exact List.mem_cons_self _ _
          rw [ih (p + sz) (p + sz) e f hpos' hmem (by omega) hf']
          show _ = List.filter _ (p :: startsFrom (p + sz) rest)
          rw [List.filter_cons]
          have hhead : (decide (p ≤ p) && decide (p < e)) = true := by
            simp [hbe]
          rw [hhead]
          simp only [if_true]
          congr 1
          apply List.filter_congr
          intro s hs
          have h1 : p + sz ≤ s := mem_startsFrom_ge _ _ _ hs
          have e1 : decide (p + sz ≤ s) = true := decide_eq_true h1
          have e2 : decide (p ≤ s) = true := decide_eq_true (by omega)
          rw [e1, e2]
        · simp only [walk]
          rw [if_neg hbe]
          symm
          rw [List.filter_eq_nil_iff]
          intro s hs
          rcases List.mem_cons.mp hs with rfl | hs'
          · simp [hbe]
          · have := mem_startsFrom_ge _ _ _ hs'
            have : ¬ s < e := by omega
            simp [this]
      · -- p starts in the tail
        have hb : b + sz ≤ p := mem_startsFrom_ge _ _ _ hp'
        rw [walk_shift (f + 1) rest b sz p e hszpos hb]
        -- one step of walk on the tail parse, then induction via htail
        cases hfs : f with
        | zero => omega
        | succ f2 =>
          rw [← hfs]
          have : walk (b + sz) rest p e f =
              (startsFrom b (sz :: rest)).filter
                (fun s => decide (p ≤ s) && decide (s < e)) :=
            htail p hb (Or.inl hp')
          calc walk (b + sz) rest p e (f + 1)
              = walk (b + sz) rest p e f := by
                rw [ih (b + sz) p e (f + 1) hpos' (Or.inl hp') (by omega)
                    (by omega),
                  ih (b + sz) p e f hpos' (Or.inl hp') (by omega) hf']
            _ = _ := this
    · -- p is the parse's top: the walk is empty, and so is the filter
      have hb : b + sz ≤ p := by
        rw [List.sum_cons] at hp
        omega
      rw [walk_shift (f + 1) rest b sz p e hszpos hb]
      have hp' : p = (b + sz) + rest.sum := by
        rw [List.sum_cons] at hp
        omega
      calc walk (b + sz) rest p e (f + 1)
          = walk (b + sz) rest p e f := by
            rw [ih (b + sz) p e (f + 1) hpos' (Or.inr hp') (by omega)
                (by omega),
              ih (b + sz) p e f hpos' (Or.inr hp') (by omega) hf']
        _ = _ := htail p hb (Or.inr hp')

/-- `object_iterate_block` on block `i` visits exactly the objects whose
start lies in the block's window `[begin, min top (begin + bws))`. -/
theorem object_iterate_block_eq (bottom top ibs i : Nat) (szs : List Nat)
    (hpos : ∀ x ∈ szs, 0 < x) (htop : top = bottom + szs.sum) :
    object_iterate_block bottom top szs ibs i =
      (startsFrom bottom szs).filter
        (fun s => decide (bottom + i * (ibs / 8) ≤ s) &&
          decide (s < min top (bottom + i * (ibs / 8) + ibs / 8))) := by
  unfold object_iterate_block
  dsimp only
  by_cases hr : object_starts_in_range bottom szs
      (bottom + i * (ibs / 8))
      (min top (bottom + i * (ibs / 8) + ibs / 8)) = true
  · rw [if_pos hr]
    obtain ⟨s0, hs0m, hs0⟩ := List.any_eq_true.mp hr
    rw [Bool.and_eq_true, decide_eq_true_eq, decide_eq_true_eq] at hs0
    obtain ⟨hs0ge, hs0lt⟩ := hs0
    have hbg_lt : bottom + i * (ibs / 8) < bottom + szs.sum := by
      have h1 := mem_startsFrom_lt szs bottom s0 hpos hs0m
      omega
    obtain ⟨hstm, hstle, hstlt, hstmax⟩ := object_start_spec szs bottom
      (bottom + i * (ibs / 8)) hpos (Nat.le_add_right _ _) hbg_lt
    -- the adjusted start: the least object start at or after the block begin
    set st := object_start bottom szs (bottom + i * (ibs / 8)) with hstdef
    set st2 := (if st < bottom + i * (ibs / 8) then
        st + sizeAt bottom szs st else st) with hst2def
    have hfacts : (st2 ∈ startsFrom bottom szs ∨ st2 = bottom + szs.sum) ∧
        bottom + i * (ibs / 8) ≤ st2 ∧
        ∀ u ∈ startsFrom bottom szs, bottom + i * (ibs / 8) ≤ u →
          st2 ≤ u := by
      rw [hst2def]
      by_cases hlt : st < bottom + i * (ibs / 8)
      · rw [if_pos hlt]
        obtain ⟨hn1, hn2, hn3⟩ := next_start_spec szs bottom st hpos hstm
        refine ⟨hn1, by omega, ?_⟩
        intro u hu hub
        exact hn3 u hu (by omega)
      · rw [if_neg hlt]
        have : st = bottom + i * (ibs / 8) := by omega
        refine ⟨Or.inl hstm, by omega, ?_⟩
        intro u hu hub
        omega
    obtain ⟨hst2m, hst2ge, hst2min⟩ := hfacts
    rw [walk_eq szs bottom st2
      (min top (bottom + i * (ibs / 8) + ibs / 8)) (szs.length + 1) hpos
      hst2m (by omega) (by omega)]
    apply List.filter_congr
    intro s hs
    by_cases hsge : bottom + i * (ibs / 8) ≤ s
    · rw [decide_eq_true hsge, decide_eq_true (hst2min s hs hsge)]
    · have hns : ¬ st2 ≤ s := fun h => hsge (le_trans hst2ge h)
      rw [decide_eq_false hsge, decide_eq_false hns]
  · rw [if_neg hr]
    symm
    rw [List.filter_eq_nil_iff]
    intro a ha
    intro hcontra
    exact hr (List.any_eq_true.mpr ⟨a, ha, hcontra⟩)

/-- For a sorted list, the elements below `c` followed by the elements in
`[c, d)` are the elements below `d`. -/
theorem filter_append_window (l : List Nat) :
    ∀ (c d : Nat), l.Pairwise (· < ·) → c ≤ d →
      l.filter (fun s => decide (s < c)) ++
        l.filter (fun s => decide (c ≤ s) && decide (s < d)) =
      l.filter (fun s => decide (s < d)) := by
  induction l with
  | nil => intros; rfl
  | cons x rest ih =>
    intro c d hpw hcd
    obtain ⟨hx, hpw'⟩ := List.pairwise_cons.mp hpw
    by_cases hxc : x < c
    · rw [List.filter_cons, List.filter_cons, List.filter_cons]
      have h2 : (decide (c ≤ x) && decide (x < d)) = false := by
        have : ¬ c ≤ x := by omega
        simp [this]
      rw [decide_eq_true hxc, h2, decide_eq_true (by omega : x < d)]
      simp only [if_true, Bool.false_eq_true, if_false]
      rw [List.cons_append]
      congr 1
      exact ih c d hpw' hcd
    · have hcx : c ≤ x := Nat.not_lt.mp hxc
      have hf1 : (x :: rest).filter (fun s => decide (s < c)) = [] := by
        rw [List.filter_eq_nil_iff]
        intro a ha
        have hca : c ≤ a := by
          rcases List.mem_cons.mp ha with rfl | ha'
          · exact hcx
          · have := hx a ha'; omega
        simp
        omega
      rw [hf1, List.nil_append]
      apply List.filter_congr
      intro a ha
      have hca : c ≤ a := by
        rcases List.mem_cons.mp ha with rfl | ha'
        · exact hcx
        · have := hx a ha'; omega
      rw [decide_eq_true hca, Bool.true_and]

/-- Tiling: consecutive width-`w` windows starting at `b` jointly pick out
every element below `b + n * w`, each exactly once, in order. -/
theorem window_tiling (l : List Nat) (b w : Nat)
    (hpw : l.Pairwise (· < ·)) (hge : ∀ s ∈ l, b ≤ s) :
    ∀ n, ((List.range n).flatMap fun i =>
        l.filter (fun s => decide (b + i * w ≤ s) &&
          decide (s < b + i * w + w)))
      = l.filter (fun s => decide (s < b + n * w)) := by
  intro n
  induction n with
  | zero =>
    simp only [List.range_zero, List.flatMap_nil]
    symm
    rw [List.filter_eq_nil_iff]
    intro a ha
    have := hge a ha
    simp
    omega
  | succ n ihn =>
    rw [List.range_succ, List.flatMap_append, ihn]
    have hsingle : ([n].flatMap fun i =>
        l.filter (fun s => decide (b + i * w ≤ s) &&
          decide (s < b + i * w + w)))
        = l.filter (fun s => decide (b + n * w ≤ s) &&
            decide (s < b + n * w + w)) := by
      simp [List.flatMap]
    rw [hsingle,
      filter_append_window l (b + n * w) (b + n * w + w) hpw (by omega)]
    apply List.filter_congr
    intro a _
    have harith : b + (n + 1) * w = b + n * w + w := by ring
    rw [harith]

/-- C9.  Iterating `object_iterate_block` over all block indices
`0 .. num_iterable_blocks - 1` (that count being
`ceil(used_bytes / IterateBlockSize)`) of a populated region invokes the
callback on every live object of `[bottom, top)` exactly once and in
address order (the concatenation of the per-block visit lists is exactly
the parse's object-start list); moreover each block visits exactly the
objects whose start address lies in that block's window — so an object
spanning a block boundary is visited only from the block containing its
start, and a block in which no object starts invokes the callback zero
times. -/
theorem c9_object_iterate_blocks (bottom top ibs : Nat) (szs : List Nat)
    (hpos : ∀ x ∈ szs, 0 < x)
    (htop : top = bottom + szs.sum)
    (hdvd : 8 ∣ ibs) (hibs8 : 8 ≤ ibs) :
    ((List.range (num_iterable_blocks bottom top ibs)).flatMap
      (object_iterate_block bottom top szs ibs))
      = startsFrom bottom szs ∧
    ∀ i, object_iterate_block bottom top szs ibs i =
      (startsFrom bottom szs).filter
        (fun s => decide (bottom + i * (ibs / 8) ≤ s) &&
          decide (s < min top (bottom + i * (ibs / 8) + ibs / 8))) := by
  have hibspos : 0 < ibs := by omega
  refine ⟨?_, fun i => object_iterate_block_eq bottom top ibs i szs
    hpos htop⟩
  have hdropmin : ∀ i, (startsFrom bottom szs).filter
      (fun s => decide (bottom + i * (ibs / 8) ≤ s) &&
        decide (s < min top (bottom + i * (ibs / 8) + ibs / 8)))
      = (startsFrom bottom szs).filter
        (fun s => decide (bottom + i * (ibs / 8) ≤ s) &&
          decide (s < bottom + i * (ibs / 8) + ibs / 8)) := by
    intro i
    apply List.filter_congr
    intro s hs
    have hlt : s < top := by
      have := mem_startsFrom_lt szs bottom s hpos hs
      omega
    have hmineq : decide (s < min top (bottom + i * (ibs / 8) + ibs / 8))
        = decide (s < bottom + i * (ibs / 8) + ibs / 8) := by
      by_cases h : s < bottom + i * (ibs / 8) + ibs / 8
      · rw [decide_eq_true h, decide_eq_true (lt_min hlt h)]
      · rw [decide_eq_false h,
          decide_eq_false
            (fun hc => h (lt_of_lt_of_le hc (min_le_right _ _)))]
    rw [hmineq]
  have hfun : object_iterate_block bottom top szs ibs = fun i =>
      (startsFrom bottom szs).filter
        (fun s => decide (bottom + i * (ibs / 8) ≤ s) &&
          decide (s < bottom + i * (ibs / 8) + ibs / 8)) := by
    funext i
    rw [object_iterate_block_eq bottom top ibs i szs hpos htop,
      hdropmin i]
  rw [hfun,
    window_tiling (startsFrom bottom szs) bottom (ibs / 8)
      (startsFrom_pairwise szs bottom hpos)
      (fun s hs => mem_startsFrom_ge szs bottom s hs)]
  -- every start is below the last block's end
  obtain ⟨k, hk⟩ := hdvd
  have hdiv8 : ibs / 8 = k := by
    rw [hk]
    exact Nat.mul_div_cancel_left k (by norm_num)
  have h1 : (top - bottom) * 8 ≤
      num_iterable_blocks bottom top ibs * ibs :=
    le_alignUp ((top - bottom) * 8) ibs hibspos
  have h2 : num_iterable_blocks bottom top ibs * ibs =
      (num_iterable_blocks bottom top ibs * k) * 8 := by
    rw [hk]
    ring
  have h3 : top - bottom ≤ num_iterable_blocks bottom top ibs * k := by
    have h4 : (top - bottom) * 8 ≤
        (num_iterable_blocks bottom top ibs * k) * 8 := by omega
    exact Nat.le_of_mul_le_mul_right h4 (by norm_num)
  apply List.filter_eq_self.mpr
  intro s hs
  have hslt : s < top := by
    have := mem_startsFrom_lt szs bottom s hpos hs
    omega
  have hsge : bottom ≤ s := mem_startsFrom_ge szs bottom s hs
  rw [hdiv8]
  exact decide_eq_true (by omega)

/-- Witness for C9: a three-object parse (sizes 3, 600, 5 words, the
middle object straddling the first block boundary at 512 words with
`IterateBlockSize` 4096 bytes) iterated over its
`ceil(608 * 8 / 4096) = 2` blocks visits exactly starts 0, 3, 603. -/
theorem c9_witness :
    (∀ x ∈ [3, 600, 5], 0 < x) ∧
    ((List.range (num_iterable_blocks 0 608 4096)).flatMap
      (object_iterate_block 0 608 [3, 600, 5] 4096)) = [0, 3, 603] := by
  refine ⟨by decide, ?_⟩
  have h := (c9_object_iterate_blocks 0 608 4096 [3, 600, 5] (by decide)
    (by decide) (by decide) (by decide)).1
  rw [h]
  rfl

end PSOldGen
